import Mathlib

/-!
Verification of the faf library: a shallow embedding of its byte-buffer
scanner (bytestring.go), its raw getdents64 record accessors (dirent
decoding) and its directory iterator loop (readdir.go), with theorems
settling the specified properties.

Bytes are modelled as natural numbers; Go's byte type is 0..255, and the
decoding helpers reduce list elements modulo 256 exactly where Go's byte
type does. Go's uint64 arithmetic wraps modulo 2^64, which the embedding
makes explicit. Go loops that walk the buffer via an integer cursor are
translated to structural recursion over the unread suffix of the byte
list, with the number of consumed bytes returned so the cursor update is
exactly the Go cursor update.
-/

namespace Faf

/-- Go's uint64 modulus, 2^64. -/
def w64 : Nat := 18446744073709551616

/-- Bytestring from bytestring.go: a byte slice plus a parsing position. -/
structure Bytestring where
  b : List Nat
  pos : Nat
deriving Repr, DecidableEq

/-- NewBytestring from bytestring.go: parsing starts at position zero. -/
def NewBytestring (b : List Nat) : Bytestring :=
  { pos := 0, b := b }

/-- Modelled from the spec: the unexported constructor newBytestring used by
ParseUint is not among the provided sources; the spec says the convenience
parser "constructs a scanner over the whole buffer", i.e. cursor zero over
the full slice, identical to the exported NewBytestring. -/
def newBytestring (b : List Nat) : Bytestring :=
  { pos := 0, b := b }

/-- EOL from bytestring.go: true when the position has reached the end. -/
def Bytestring.EOL (s : Bytestring) : Bool :=
  decide (s.pos ≥ s.b.length)

/-- Loop of SkipSpace over the unread suffix; returns (eol, consumed count).
Mirrors: stop with true at end of buffer, stop with false at the first
non-space (0x20) byte, otherwise advance. -/
def skipSpaceLoop : List Nat → Bool × Nat
  | [] => (true, 0)
  | ch :: rest =>
    if ch ≠ 32 then (false, 0)
    else
      let r := skipSpaceLoop rest
      (r.1, r.2 + 1)

/-- SkipSpace from bytestring.go. -/
def Bytestring.SkipSpace (s : Bytestring) : Bool × Bytestring :=
  let r := skipSpaceLoop (s.b.drop s.pos)
  (r.1, { s with pos := s.pos + r.2 })

/-- SkipText from bytestring.go: bounds check, bytes.Equal comparison
against the slice b[pos:pos+len(t)], then cursor advance on success. -/
def Bytestring.SkipText (s : Bytestring) (t : List Nat) : Bool × Bytestring :=
  if s.pos ≥ s.b.length ∨ s.pos + t.length > s.b.length then (false, s)
  else if (s.b.drop s.pos).take t.length ≠ t then (false, s)
  else (true, { s with pos := s.pos + t.length })

/-- Next from bytestring.go: return the byte at the cursor and advance. -/
def Bytestring.Next (s : Bytestring) : (Nat × Bool) × Bytestring :=
  if s.pos ≥ s.b.length then ((0, false), s)
  else ((s.b.getD s.pos 0, true), { s with pos := s.pos + 1 })

/-- cutoffDecimalUint64 from bytestring.go: (1<<64-1)/10 + 1. -/
def cutoffDecimalUint64 : Nat := (w64 - 1) / 10 + 1

/-- cutoffHexUint64 from bytestring.go: 1 << 60. -/
def cutoffHexUint64 : Nat := 1152921504606846976

/-- Loop of Uint64 over the unread suffix, carrying the Go loop variables
num and ok; returns (num, ok, consumed count). The accumulation
num*10 + digit is Go uint64 arithmetic, hence the explicit mod 2^64. On
the overflow-cutoff branch Go returns (0, false) without consuming the
offending byte. -/
def uint64Loop : List Nat → Nat → Bool → Nat × Bool × Nat
  | [], num, ok =>
    if !ok then (0, false, 0) else (num, true, 0)
  | ch :: rest, num, ok =>
    if ch < 48 ∨ ch > 57 then
      if !ok then (0, false, 0) else (num, true, 0)
    else if num ≥ cutoffDecimalUint64 then (0, false, 0)
    else
      let r := uint64Loop rest ((num * 10 + (ch - 48)) % w64) true
      (r.1, r.2.1, r.2.2 + 1)

/-- Uint64 from bytestring.go. -/
def Bytestring.Uint64 (s : Bytestring) : (Nat × Bool) × Bytestring :=
  let r := uint64Loop (s.b.drop s.pos) 0 false
  ((r.1, r.2.1), { s with pos := s.pos + r.2.2 })

/-- Hex digit classification of HexUint64, in source order: 0-9, a-f, A-F. -/
def hexDigitVal (ch : Nat) : Option Nat :=
  if 48 ≤ ch ∧ ch ≤ 57 then some (ch - 48)
  else if 97 ≤ ch ∧ ch ≤ 102 then some (ch - 97 + 10)
  else if 65 ≤ ch ∧ ch ≤ 70 then some (ch - 65 + 10)
  else none

/-- Loop of HexUint64 over the unread suffix; returns (num, ok, consumed).
The accumulation num<<4 + digit is Go uint64 arithmetic, mod 2^64. -/
def hexUint64Loop : List Nat → Nat → Bool → Nat × Bool × Nat
  | [], num, ok =>
    if !ok then (0, false, 0) else (num, true, 0)
  | ch :: rest, num, ok =>
    match hexDigitVal ch with
    | none =>
      if !ok then (0, false, 0) else (num, true, 0)
    | some d =>
      if num ≥ cutoffHexUint64 then (0, false, 0)
      else
        let r := hexUint64Loop rest ((num * 16 + d) % w64) true
        (r.1, r.2.1, r.2.2 + 1)

/-- HexUint64 from bytestring.go. -/
def Bytestring.HexUint64 (s : Bytestring) : (Nat × Bool) × Bytestring :=
  let r := hexUint64Loop (s.b.drop s.pos) 0 false
  ((r.1, r.2.1), { s with pos := s.pos + r.2.2 })

/-- Loop of NumFields over the suffix from the (local copy of the) cursor.
The two nested Go loops (skip spaces, then skip a field) are linearized
into one pass with a flag recording whether we are inside a field; a new
field is counted exactly when a non-space byte follows start-of-scan or a
space, which is when the Go outer loop increments num. -/
def numFieldsLoop : List Nat → Bool → Nat
  | [], _ => 0
  | ch :: rest, inField =>
    if ch = 32 then numFieldsLoop rest false
    else (if inField then 0 else 1) + numFieldsLoop rest true

/-- NumFields from bytestring.go; works on a local position copy and never
changes the cursor, so the embedding takes the state read-only. -/
def Bytestring.NumFields (s : Bytestring) : Nat :=
  numFieldsLoop (s.b.drop s.pos) false

/-- ParseUint from the convenience-parser source file: scan the whole
buffer, require Uint64 to succeed and the scanner to be at EOL. -/
def ParseUint (b : List Nat) : Nat × Bool :=
  let s := newBytestring b
  let r := Bytestring.Uint64 s
  if !r.1.2 then (0, false)
  else if !(Bytestring.EOL r.2) then (0, false)
  else r.1

/-- Little-endian byte-list decoding used by readUint (via
binary.NativeEndian on linux/amd64); Go's byte type makes every element
0..255, modelled by reducing each element mod 256. -/
def leNat : List Nat → Nat
  | [] => 0
  | byte :: rest => byte % 256 + 256 * leNat rest

/-- readUint from the dirent source file: bounds check, then decode an
unsigned integer of size 8, 4 or 2 at the given offset; any other size is
rejected. -/
def readUint (b : List Nat) (offset size : Nat) : Option Nat :=
  if offset + size > b.length then none
  else if size = 8 ∨ size = 4 ∨ size = 2 then some (leNat ((b.drop offset).take size))
  else none

/-- RawDirEntry64 from the dirent source file: a byte slice viewed as one
getdents64 record. -/
abbrev RawDirEntry64 := List Nat

/-- Field offsets of unix.Dirent on linux/amd64: Ino uint64 at 0, Off
int64 at 8, Reclen uint16 at 16, Type uint8 at 18, Name at 19. -/
def direntNameOffset : Nat := 19

/-- Ino from the dirent source file: the 8-byte inode field at offset 0. -/
def RawDirEntry64.Ino (d : RawDirEntry64) : Option Nat :=
  readUint d 0 8

/-- Len from the dirent source file: the 2-byte Reclen field at offset 16. -/
def RawDirEntry64.Len (d : RawDirEntry64) : Option Nat :=
  readUint d 16 2

/-- Type accessor from the dirent source file (named dirType here because
Type is reserved in Lean): the byte at offset 18. -/
def RawDirEntry64.dirType (d : RawDirEntry64) : Option Nat :=
  if 18 ≥ d.length then none
  else some (d.getD 18 0)

/-- Result of the Name accessor: a returned span, a false result, or a Go
runtime panic from a slice expression whose bounds are reversed. -/
inductive NameRes
  | ok (name : List Nat)
  | fail
  | panicked
deriving Repr, DecidableEq

/-- Go slice expression d[lo:hi] for lo, hi already known to satisfy
hi ≤ len(d); written as drop-then-take. -/
def listSlice (d : List Nat) (lo hi : Nat) : List Nat :=
  (d.drop lo).take (hi - lo)

/-- NUL-scan loop of Name, iterating pos from the name offset while
pos < hi where hi is nameoffset+namelen; k is the remaining iteration
count hi - pos, making the recursion structural. On loop exit Go returns
the slice d[19:hi], which panics when 19 > hi (hi ≤ len(d) was already
established by the caller's bounds test). -/
def nameScanLoop (d : List Nat) (hi : Nat) : Nat → Nat → NameRes
  | 0, _ =>
    if 19 ≤ hi then .ok (listSlice d 19 hi) else .panicked
  | k + 1, pos =>
    if d.getD pos 0 = 0 then .ok (listSlice d 19 pos)
    else nameScanLoop d hi k (pos + 1)

/-- Name from the dirent source file. namelen := dentryLen - nameoffset is
a Go uint64 subtraction and wraps modulo 2^64 when dentryLen < 19, as does
the addition nameoffset+namelen in the bounds test and the loop bound. -/
def RawDirEntry64.Name (d : RawDirEntry64) : NameRes :=
  match RawDirEntry64.Len d with
  | none => .fail
  | some dentryLen =>
    let namelen := (dentryLen + w64 - direntNameOffset) % w64
    let hi := (direntNameOffset + namelen) % w64
    if hi > d.length then .fail
    else nameScanLoop d hi (hi - direntNameOffset) direntNameOffset

/-- Cooked directory entry from the dirent source file (field Type is
named typ because Type is reserved in Lean). -/
structure DirEntry where
  ino : Nat
  name : List Nat
  typ : Nat
deriving Repr, DecidableEq

/-- Outcome of draining one kernel-filled buffer in the ReadDir loop:
either the cursor reached the end of the filled bytes (Go refills via
Getdents), or a return statement ended the whole scan, or a runtime panic
occurred inside Name, or the fuel ran out (modelling non-termination).
Each outcome carries the entries yielded so far. -/
inductive BatchRes
  | refill (es : List DirEntry)
  | stop (es : List DirEntry)
  | panicked (es : List DirEntry)
  | noFuel (es : List DirEntry)
deriving Repr, DecidableEq

/-- Prepend an entry yielded before the rest of the drain finished. -/
def BatchRes.push (e : DirEntry) : BatchRes → BatchRes
  | .refill es => .refill (e :: es)
  | .stop es => .stop (e :: es)
  | .panicked es => .panicked (e :: es)
  | .noFuel es => .noFuel (e :: es)

/-- One-buffer drain of the ReadDir loop from readdir.go, for a buffer
holding avail = buff.length kernel-filled bytes, starting at cursor pos.
Per iteration: view the unread remainder as a raw record; decode Reclen
and return if it is unavailable or exceeds the remainder; advance pos by
it; decode Ino and skip the record on failure or a zero inode; decode
Name, returning on failure; skip "." and ".."; decode Type, returning on
failure; yield. The fuel argument only bounds the number of iterations so
that the translation is total; the Go loop itself has no such bound. -/
def drainBatch : Nat → List Nat → Nat → BatchRes
  | 0, _, _ => .noFuel []
  | fuel + 1, buff, pos =>
    if pos ≥ buff.length then .refill []
    else
      let dentry : RawDirEntry64 := buff.drop pos
      match RawDirEntry64.Len dentry with
      | none => .stop []
      | some dentryLen =>
        if dentryLen > dentry.length then .stop []
        else
          let pos' := pos + dentryLen
          match RawDirEntry64.Ino dentry with
          | none => drainBatch fuel buff pos'
          | some ino =>
            if ino = 0 then drainBatch fuel buff pos'
            else
              match RawDirEntry64.Name dentry with
              | .panicked => .panicked []
              | .fail => .stop []
              | .ok name =>
                if name = [46] ∨ name = [46, 46] then drainBatch fuel buff pos'
                else
                  match RawDirEntry64.dirType dentry with
                  | none => .stop []
                  | some typ =>
                    BatchRes.push { ino := ino, name := name, typ := typ }
                      (drainBatch fuel buff pos')

/-- Final outcome of a whole ReadDir iteration. -/
inductive RunRes
  | ok (es : List DirEntry)
  | panicked (es : List DirEntry)
  | noFuel (es : List DirEntry)
deriving Repr, DecidableEq

/-- Prepend entries yielded by an earlier buffer. -/
def RunRes.prependEntries (es : List DirEntry) : RunRes → RunRes
  | .ok es' => .ok (es ++ es')
  | .panicked es' => .panicked (es ++ es')
  | .noFuel es' => .noFuel (es ++ es')

/-- The ReadDir iteration from readdir.go over the successive Getdents
results, each batch being the bytes the kernel filled into the scratch
buffer; an exhausted batch list (or an empty batch) is Getdents returning
zero or an error, on which the Go code returns. -/
def runBatches (fuel : Nat) : List (List Nat) → RunRes
  | [] => .ok []
  | batch :: rest =>
    if batch.length = 0 then .ok []
    else
      match drainBatch fuel batch 0 with
      | .refill es => RunRes.prependEntries es (runBatches fuel rest)
      | .stop es => .ok es
      | .panicked es => .panicked es
      | .noFuel es => .noFuel es

/-- Little-endian encoding of v into k bytes (the layout getdents64
writes and the repository's own test helper makeRawDirEntry64 builds). -/
def encodeU : Nat → Nat → List Nat
  | 0, _ => []
  | k + 1, v => v % 256 :: encodeU k (v / 256)

/-- Encoding of one well-formed getdents64 record, as the repository's
test helper makeRawDirEntry64 lays it out: Ino (8 bytes), Off (8 bytes,
zero), Reclen = 19 + len(name) + 1 (2 bytes), Type (1 byte), then the
NUL-terminated name. -/
def encodeDirent (e : DirEntry) : List Nat :=
  encodeU 8 e.ino ++ encodeU 8 0 ++ encodeU 2 (20 + e.name.length) ++
    [e.typ] ++ e.name ++ [0]

/-- Well-formedness of a record delivered by a batched read: the inode
fits in 64 bits, the type byte is a byte, the record length fits the
16-bit Reclen field, and the name is NUL-free bytes. -/
def wfEntry (e : DirEntry) : Prop :=
  e.ino < w64 ∧ e.typ < 256 ∧ 20 + e.name.length < 65536 ∧
    ∀ byte ∈ e.name, 0 < byte ∧ byte < 256

/-- The records ReadDir surfaces: non-zero inode, name neither "." nor
"..". -/
def keepEntry (e : DirEntry) : Bool :=
  decide (e.ino ≠ 0) && decide (e.name ≠ [46]) && decide (e.name ≠ [46, 46])

/-- Value of a decimal digit byte string (most significant first). -/
def decVal (ds : List Nat) : Nat :=
  ds.foldl (fun a ch => a * 10 + (ch - 48)) 0

/-- Value of a hexadecimal digit byte string (most significant first). -/
def hexVal (ds : List Nat) : Nat :=
  ds.foldl (fun a ch => a * 16 + (hexDigitVal ch).getD 0) 0

/-- Canonical decimal text of n, as Go formatting produces it. -/
def decBytes (n : Nat) : List Nat :=
  if n = 0 then [48] else (Nat.digits 10 n).reverse.map (fun d => d + 48)

/-- Byte of one hex digit in Go's lowercase hexadecimal formatting. -/
def hexDigitByte (d : Nat) : Nat :=
  if d < 10 then d + 48 else d + 87

/-- Canonical lowercase hexadecimal text of n, as Go formatting produces
it. -/
def hexBytes (n : Nat) : List Nat :=
  if n = 0 then [48] else (Nat.digits 16 n).reverse.map hexDigitByte

theorem skipSpaceLoop_consumed_le (l : List Nat) : (skipSpaceLoop l).2 ≤ l.length := by
  induction l with
  | nil => simp [skipSpaceLoop]
  | cons ch rest ih =>
    simp only [skipSpaceLoop, List.length_cons]
    split
    · simp
    · dsimp only
      omega

theorem uint64Loop_consumed_le (l : List Nat) :
    ∀ num ok, (uint64Loop l num ok).2.2 ≤ l.length := by
  induction l with
  | nil =>
    intro num ok
    simp only [uint64Loop]
    split <;> simp
  | cons ch rest ih =>
    intro num ok
    simp only [uint64Loop, List.length_cons]
    split
    · split <;> simp
    · split
      · simp
      · dsimp only
        have := ih ((num * 10 + (ch - 48)) % w64) true
        omega

theorem hexUint64Loop_consumed_le (l : List Nat) :
    ∀ num ok, (hexUint64Loop l num ok).2.2 ≤ l.length := by
  induction l with
  | nil =>
    intro num ok
    simp only [hexUint64Loop]
    split <;> simp
  | cons ch rest ih =>
    intro num ok
    simp only [hexUint64Loop, List.length_cons]
    cases hexDigitVal ch with
    | none =>
      dsimp only
      split <;> simp
    | some d =>
      dsimp only
      split
      · simp
      · dsimp only
        have := ih ((num * 16 + d) % w64) true
        omega

/-- C1: the claim states that the pre-multiplication cutoff of Uint64
rules out every 64-bit wraparound, so that no wrapped value is ever
returned with success. The code refutes this: on the decimal text of 2^64
(value just past the unsigned range) the accumulator passes the cutoff
test at 1844674407370955161, wraps to 0 on the final digit, and Uint64
returns (0, true). -/
theorem uint64_wraps_past_max_with_success :
    (Bytestring.Uint64 (NewBytestring
      [49, 56, 52, 52, 54, 55, 52, 52, 48, 55, 51, 55, 48, 57, 53, 53, 49, 54, 49, 54])).1
      = (0, true) ∧
    decVal [49, 56, 52, 52, 54, 55, 52, 52, 48, 55, 51, 55, 48, 57, 53, 53, 49, 54, 49, 54]
      = w64 := by
  constructor
  · rfl
  · rfl

/-- C3: the claim states that Name never panics and never reads outside
the slice, for every byte slice, including one whose decoded record
length is smaller than the name-field offset 19. The code refutes this:
on an 18-byte slice whose Reclen field decodes to 5, the uint64
subtraction namelen = 5 - 19 wraps, the wrapped bounds test passes, and
the final slice expression d[19:5] has reversed bounds, a Go runtime
panic. -/
theorem name_panics_on_reclen_below_name_offset :
    RawDirEntry64.Len [0, 0, 0, 0, 0, 0, 0, 0, 0, 0, 0, 0, 0, 0, 0, 0, 5, 0] = some 5 ∧
    RawDirEntry64.Name [0, 0, 0, 0, 0, 0, 0, 0, 0, 0, 0, 0, 0, 0, 0, 0, 5, 0]
      = NameRes.panicked := by
  constructor
  · rfl
  · rfl

/-- C4: the claim states that a record length decoding successfully to
zero makes the scan terminate silently. The code refutes this: on a
buffer of 18 zero bytes the Reclen field decodes to 0, the guard only
rejects lengths exceeding the remainder, the cursor does not advance, the
zero inode takes the continue branch, and the loop re-reads the same
record forever: under every fuel bound the drain is still running, so no
terminating outcome exists. -/
theorem zero_reclen_scan_never_terminates :
    RawDirEntry64.Len (List.replicate 18 0) = some 0 ∧
    ∀ fuel, drainBatch fuel (List.replicate 18 0) 0 = BatchRes.noFuel [] := by
  constructor
  · rfl
  · intro fuel
    induction fuel with
    | zero => rfl
    | succ f ih => exact ih

/-- C7: the claim states that ParseUint fails on every decimal literal
one digit longer than the maximum 64-bit unsigned value. The code refutes
this: the 21-digit literal 184467440737095516161 wraps the accumulator
through 2^64 to 0 after its first 20 digits, the final digit yields 1,
and ParseUint returns (1, true). -/
theorem parseUint_accepts_oversized_literal :
    ParseUint
      [49, 56, 52, 52, 54, 55, 52, 52, 48, 55, 51, 55, 48, 57, 53, 53, 49, 54, 49, 54, 49]
      = (1, true) ∧
    decVal [49, 56, 52, 52, 54, 55, 52, 52, 48, 55, 51, 55, 48, 57, 53, 53, 49, 54, 49, 54, 49]
      = 184467440737095516161 ∧
    w64 < 184467440737095516161 := by
  refine ⟨rfl, rfl, by norm_num [w64]⟩

/-- C8: every scanner operation keeps the cursor within 0 ≤ cursor ≤
slice length and never moves it backwards. EOL and NumFields take the
state read-only in the embedding (as in the source, which works on a
local copy of the position), so they preserve the invariant by
construction; the five cursor-moving operations are covered here, each
one also leaving the underlying slice untouched. -/
theorem scanner_cursor_invariant (st : Bytestring) (t : List Nat)
    (h : st.pos ≤ st.b.length) :
    (st.pos ≤ (Bytestring.SkipSpace st).2.pos ∧
      (Bytestring.SkipSpace st).2.pos ≤ st.b.length ∧
      (Bytestring.SkipSpace st).2.b = st.b) ∧
    (st.pos ≤ (Bytestring.SkipText st t).2.pos ∧
      (Bytestring.SkipText st t).2.pos ≤ st.b.length ∧
      (Bytestring.SkipText st t).2.b = st.b) ∧
    (st.pos ≤ (Bytestring.Next st).2.pos ∧
      (Bytestring.Next st).2.pos ≤ st.b.length ∧
      (Bytestring.Next st).2.b = st.b) ∧
    (st.pos ≤ (Bytestring.Uint64 st).2.pos ∧
      (Bytestring.Uint64 st).2.pos ≤ st.b.length ∧
      (Bytestring.Uint64 st).2.b = st.b) ∧
    (st.pos ≤ (Bytestring.HexUint64 st).2.pos ∧
      (Bytestring.HexUint64 st).2.pos ≤ st.b.length ∧
      (Bytestring.HexUint64 st).2.b = st.b) := by
  refine ⟨⟨?_, ?_, rfl⟩, ?_, ?_, ⟨?_, ?_, rfl⟩, ⟨?_, ?_, rfl⟩⟩
  · simp [Bytestring.SkipSpace]
  · have := skipSpaceLoop_consumed_le (st.b.drop st.pos)
    simp only [Bytestring.SkipSpace, List.length_drop] at this ⊢
    omega
  · unfold Bytestring.SkipText
    split
    · exact ⟨Nat.le_refl _, h, rfl⟩
    · split
      · exact ⟨Nat.le_refl _, h, rfl⟩
      · refine ⟨by simp, by dsimp only; omega, rfl⟩
  · unfold Bytestring.Next
    split
    · exact ⟨Nat.le_refl _, h, rfl⟩
    · refine ⟨by simp, by dsimp only; omega, rfl⟩
  · simp [Bytestring.Uint64]
  · have := uint64Loop_consumed_le (st.b.drop st.pos) 0 false
    simp only [Bytestring.Uint64, List.length_drop] at this ⊢
    omega
  · simp [Bytestring.HexUint64]
  · have := hexUint64Loop_consumed_le (st.b.drop st.pos) 0 false
    simp only [Bytestring.HexUint64, List.length_drop] at this ⊢
    omega

theorem scanner_cursor_invariant_witness :
    (Bytestring.Uint64 { b := [52, 50], pos := 0 }).2.pos ≤ 2 :=
  (scanner_cursor_invariant { b := [52, 50], pos := 0 } [] (by decide)).2.2.2.1.2.1

/-- C9: SkipText succeeds, advancing past the text, only when the bytes
at the cursor match the text in full within bounds; on a mismatch or
insufficient remaining bytes it fails with the scanner unchanged. -/
theorem skipText_exact_match_frame (st : Bytestring) (t : List Nat) :
    ((Bytestring.SkipText st t).1 = true →
      st.pos + t.length ≤ st.b.length ∧
      (st.b.drop st.pos).take t.length = t ∧
      (Bytestring.SkipText st t).2.pos = st.pos + t.length ∧
      (Bytestring.SkipText st t).2.b = st.b) ∧
    ((st.b.drop st.pos).take t.length ≠ t ∨ st.b.length < st.pos + t.length →
      (Bytestring.SkipText st t).1 = false ∧ (Bytestring.SkipText st t).2 = st) := by
  unfold Bytestring.SkipText
  constructor
  · split
    · intro hok
      simp at hok
    · split
      · intro hok
        simp at hok
      · rename_i hbound hmatch
        intro _
        push_neg at hbound hmatch
        exact ⟨by omega, hmatch, rfl, rfl⟩
  · split
    · intro _
      exact ⟨rfl, rfl⟩
    · split
      · intro _
        exact ⟨rfl, rfl⟩
      · rename_i hbound hmatch
        intro hbad
        push_neg at hbound hmatch
        rcases hbad with hbad | hbad
        · exact absurd hmatch hbad
        · omega

theorem skipText_exact_match_frame_witness :
    (Bytestring.SkipText { b := [97, 98, 99], pos := 0 } [97, 98]).2.pos = 0 + 2 ∧
    (Bytestring.SkipText { b := [97, 98, 100], pos := 0 } [97, 98, 99]).1 = false :=
  ⟨((skipText_exact_match_frame { b := [97, 98, 99], pos := 0 } [97, 98]).1
      (by decide)).2.2.1,
    ((skipText_exact_match_frame { b := [97, 98, 100], pos := 0 } [97, 98, 99]).2
      (by decide)).1⟩

theorem decFold_ge (ds : List Nat) :
    ∀ num, num ≤ ds.foldl (fun a ch => a * 10 + (ch - 48)) num := by
  induction ds with
  | nil => intro num; simp
  | cons ch rest ih =>
    intro num
    calc num ≤ num * 10 + (ch - 48) := by omega
    _ ≤ _ := by simpa using ih (num * 10 + (ch - 48))

theorem hexFold_ge (ds : List Nat) :
    ∀ num, num ≤ ds.foldl (fun a ch => a * 16 + (hexDigitVal ch).getD 0) num := by
  induction ds with
  | nil => intro num; simp
  | cons ch rest ih =>
    intro num
    calc num ≤ num * 16 + (hexDigitVal ch).getD 0 := by omega
    _ ≤ _ := by simpa using ih (num * 16 + (hexDigitVal ch).getD 0)

theorem uint64Loop_digits_complete (ds : List Nat) :
    ∀ num, (∀ ch ∈ ds, 48 ≤ ch ∧ ch ≤ 57) →
      ds.foldl (fun a ch => a * 10 + (ch - 48)) num < w64 →
      uint64Loop ds num true = (ds.foldl (fun a ch => a * 10 + (ch - 48)) num, true, ds.length) := by
  induction ds with
  | nil =>
    intro num _ _
    simp [uint64Loop]
  | cons ch rest ih =>
    intro num hds hlt
    have hch := hds ch (List.mem_cons_self ch rest)
    have hstep : num * 10 + (ch - 48) ≤ rest.foldl (fun a ch => a * 10 + (ch - 48)) (num * 10 + (ch - 48)) :=
      decFold_ge rest _
    have hfold : (ch :: rest).foldl (fun a ch => a * 10 + (ch - 48)) num
        = rest.foldl (fun a ch => a * 10 + (ch - 48)) (num * 10 + (ch - 48)) := by
      simp [List.foldl_cons]
    rw [hfold] at hlt
    have hw : w64 = 18446744073709551616 := rfl
    have hcut : cutoffDecimalUint64 = 1844674407370955162 := by norm_num [cutoffDecimalUint64, w64]
    have hnum : num < cutoffDecimalUint64 := by omega
    have hmod : (num * 10 + (ch - 48)) % w64 = num * 10 + (ch - 48) :=
      Nat.mod_eq_of_lt (by omega)
    simp only [uint64Loop]
    rw [if_neg (by omega), if_neg (by omega), hmod,
      ih _ (fun c hc => hds c (List.mem_cons_of_mem ch hc)) hlt]
    simp [hfold]

theorem uint64Loop_digits_start (ds : List Nat) (hne : ds ≠ [])
    (hds : ∀ ch ∈ ds, 48 ≤ ch ∧ ch ≤ 57) (hlt : decVal ds < w64) :
    uint64Loop ds 0 false = (decVal ds, true, ds.length) := by
  match ds, hne with
  | ch :: rest, _ =>
    have hch := hds ch (List.mem_cons_self ch rest)
    have hfold : decVal (ch :: rest) = rest.foldl (fun a ch => a * 10 + (ch - 48)) (ch - 48) := by
      simp [decVal, List.foldl_cons]
    rw [hfold] at hlt
    have hcut : cutoffDecimalUint64 = 1844674407370955162 := by norm_num [cutoffDecimalUint64, w64]
    have hmod : (0 * 10 + (ch - 48)) % w64 = ch - 48 := by
      rw [Nat.mod_eq_of_lt (by norm_num [w64]; omega)]
      omega
    simp only [uint64Loop]
    rw [if_neg (by omega), if_neg (by omega), hmod,
      uint64Loop_digits_complete rest (ch - 48) (fun c hc => hds c (List.mem_cons_of_mem ch hc)) hlt]
    simp [hfold]

theorem hexDigitVal_lt (ch d : Nat) (h : hexDigitVal ch = some d) : d < 16 := by
  unfold hexDigitVal at h
  split_ifs at h <;> injection h with h' <;> omega

theorem hexUint64Loop_digits_complete (ds : List Nat) :
    ∀ num, (∀ ch ∈ ds, (hexDigitVal ch).isSome = true) →
      ds.foldl (fun a ch => a * 16 + (hexDigitVal ch).getD 0) num < w64 →
      hexUint64Loop ds num true
        = (ds.foldl (fun a ch => a * 16 + (hexDigitVal ch).getD 0) num, true, ds.length) := by
  induction ds with
  | nil =>
    intro num _ _
    simp [hexUint64Loop]
  | cons ch rest ih =>
    intro num hds hlt
    obtain ⟨d, hd⟩ := Option.isSome_iff_exists.mp (hds ch (List.mem_cons_self ch rest))
    have hd16 : d < 16 := hexDigitVal_lt ch d hd
    have hstep : num * 16 + d ≤ rest.foldl (fun a ch => a * 16 + (hexDigitVal ch).getD 0) (num * 16 + d) :=
      hexFold_ge rest _
    have hfold : (ch :: rest).foldl (fun a ch => a * 16 + (hexDigitVal ch).getD 0) num
        = rest.foldl (fun a ch => a * 16 + (hexDigitVal ch).getD 0) (num * 16 + d) := by
      simp [List.foldl_cons, hd]
    rw [hfold] at hlt
    have hw : w64 = 18446744073709551616 := rfl
    have hcuth : cutoffHexUint64 = 1152921504606846976 := rfl
    have hmod : (num * 16 + d) % w64 = num * 16 + d := Nat.mod_eq_of_lt (by omega)
    simp only [hexUint64Loop, hd]
    rw [if_neg (by omega), hmod,
      ih _ (fun c hc => hds c (List.mem_cons_of_mem ch hc)) hlt]
    simp [hfold]

theorem hexUint64Loop_overflow_fails (ds : List Nat) :
    ∀ num, (∀ ch ∈ ds, (hexDigitVal ch).isSome = true) → ds ≠ [] →
      w64 ≤ ds.foldl (fun a ch => a * 16 + (hexDigitVal ch).getD 0) num →
      (hexUint64Loop ds num true).1 = 0 ∧ (hexUint64Loop ds num true).2.1 = false := by
  induction ds with
  | nil =>
    intro num _ hne _
    exact absurd rfl hne
  | cons ch rest ih =>
    intro num hds _ hge
    obtain ⟨d, hd⟩ := Option.isSome_iff_exists.mp (hds ch (List.mem_cons_self ch rest))
    have hd16 : d < 16 := hexDigitVal_lt ch d hd
    have hfold : (ch :: rest).foldl (fun a ch => a * 16 + (hexDigitVal ch).getD 0) num
        = rest.foldl (fun a ch => a * 16 + (hexDigitVal ch).getD 0) (num * 16 + d) := by
      simp [List.foldl_cons, hd]
    rw [hfold] at hge
    have hw : w64 = 18446744073709551616 := rfl
    have hcuth : cutoffHexUint64 = 1152921504606846976 := rfl
    simp only [hexUint64Loop, hd]
    by_cases hcut : num ≥ cutoffHexUint64
    · rw [if_pos hcut]
      exact ⟨rfl, rfl⟩
    · rw [if_neg hcut]
      have hmod : (num * 16 + d) % w64 = num * 16 + d := Nat.mod_eq_of_lt (by omega)
      rw [hmod]
      match rest with
      | [] =>
        simp only [List.foldl_nil] at hge
        omega
      | c :: rest' =>
        have := ih (num * 16 + d) (fun c hc => hds c (List.mem_cons_of_mem ch hc))
          (List.cons_ne_nil c rest') hge
        exact ⟨this.1, this.2⟩

theorem hexUint64Loop_start_ok (ds : List Nat) (hne : ds ≠ [])
    (hds : ∀ ch ∈ ds, (hexDigitVal ch).isSome = true) (hlt : hexVal ds < w64) :
    hexUint64Loop ds 0 false = (hexVal ds, true, ds.length) := by
  match ds, hne with
  | ch :: rest, _ =>
    obtain ⟨d, hd⟩ := Option.isSome_iff_exists.mp (hds ch (List.mem_cons_self ch rest))
    have hd16 : d < 16 := hexDigitVal_lt ch d hd
    have hfold : hexVal (ch :: rest) = rest.foldl (fun a ch => a * 16 + (hexDigitVal ch).getD 0) d := by
      simp [hexVal, List.foldl_cons, hd]
    rw [hfold] at hlt
    have hcuth : cutoffHexUint64 = 1152921504606846976 := rfl
    have hmod : (0 * 16 + d) % w64 = d := by
      rw [Nat.mod_eq_of_lt (by norm_num [w64]; omega)]
      omega
    simp only [hexUint64Loop, hd]
    rw [if_neg (by omega), hmod,
      hexUint64Loop_digits_complete rest d (fun c hc => hds c (List.mem_cons_of_mem ch hc)) hlt]
    simp [hfold]

theorem hexUint64Loop_start_overflow (ds : List Nat) (hne : ds ≠ [])
    (hds : ∀ ch ∈ ds, (hexDigitVal ch).isSome = true) (hge : w64 ≤ hexVal ds) :
    (hexUint64Loop ds 0 false).1 = 0 ∧ (hexUint64Loop ds 0 false).2.1 = false := by
  match ds, hne with
  | ch :: rest, _ =>
    obtain ⟨d, hd⟩ := Option.isSome_iff_exists.mp (hds ch (List.mem_cons_self ch rest))
    have hd16 : d < 16 := hexDigitVal_lt ch d hd
    have hfold : hexVal (ch :: rest) = rest.foldl (fun a ch => a * 16 + (hexDigitVal ch).getD 0) d := by
      simp [hexVal, List.foldl_cons, hd]
    rw [hfold] at hge
    have hcuth : cutoffHexUint64 = 1152921504606846976 := rfl
    have hmod : (0 * 16 + d) % w64 = d := by
      rw [Nat.mod_eq_of_lt (by norm_num [w64]; omega)]
      omega
    simp only [hexUint64Loop, hd]
    rw [if_neg (by omega), hmod]
    match rest with
    | [] =>
      simp only [List.foldl_nil] at hge
      have : w64 = 18446744073709551616 := rfl
      omega
    | c :: rest' =>
      exact hexUint64Loop_overflow_fails (c :: rest') d
        (fun c hc => hds c (List.mem_cons_of_mem ch hc)) (List.cons_ne_nil c rest') hge

/-- C5: on a nonempty string of hexadecimal digits, HexUint64 returns the
string's value with success exactly when that value is at most the
maximum 64-bit unsigned value (leading zeros included, since they leave
the accumulator unchanged), and returns (0, false) whenever the value
exceeds it: the cutoff 2^60 admits every in-range value and rejects every
out-of-range one, and no value is silently truncated. -/
theorem hexUint64_exact_range (ds : List Nat) (hne : ds ≠ [])
    (hds : ∀ ch ∈ ds, (hexDigitVal ch).isSome = true) :
    (hexVal ds < w64 →
      Bytestring.HexUint64 (NewBytestring ds) = ((hexVal ds, true), { b := ds, pos := ds.length })) ∧
    (w64 ≤ hexVal ds →
      (Bytestring.HexUint64 (NewBytestring ds)).1 = (0, false)) := by
  constructor
  · intro hlt
    simp only [Bytestring.HexUint64, NewBytestring, List.drop_zero]
    rw [hexUint64Loop_start_ok ds hne hds hlt]
    simp
  · intro hge
    have := hexUint64Loop_start_overflow ds hne hds hge
    simp only [Bytestring.HexUint64, NewBytestring, List.drop_zero]
    simp [Prod.ext_iff, this.1, this.2]

theorem hexUint64_exact_range_witness :
    Bytestring.HexUint64 (NewBytestring [48, 102, 102]) = ((255, true), { b := [48, 102, 102], pos := 3 }) ∧
    (Bytestring.HexUint64 (NewBytestring
      [49, 102, 102, 102, 102, 102, 102, 102, 102, 102, 102, 102, 102, 102, 102, 102, 102])).1
      = (0, false) := by
  constructor
  · have h := (hexUint64_exact_range [48, 102, 102] (by decide) (by decide)).1 (by decide)
    simpa using h
  · exact (hexUint64_exact_range
      [49, 102, 102, 102, 102, 102, 102, 102, 102, 102, 102, 102, 102, 102, 102, 102, 102]
      (by decide) (by decide)).2 (by decide)

theorem msf_foldl_ofDigits (b : Nat) (L : List Nat) :
    L.reverse.foldl (fun a d => a * b + d) 0 = Nat.ofDigits b L := by
  rw [List.foldl_reverse]
  induction L with
  | nil => simp [Nat.ofDigits]
  | cons d rest ih =>
    rw [List.foldr_cons, Nat.ofDigits_cons, ih]
    ring

theorem decVal_decBytes (n : Nat) : decVal (decBytes n) = n := by
  by_cases hn : n = 0
  · subst hn
    decide
  · unfold decBytes
    rw [if_neg hn]
    unfold decVal
    rw [List.foldl_map]
    have : ((Nat.digits 10 n).reverse.foldl (fun a d => a * 10 + (d + 48 - 48)) 0)
        = (Nat.digits 10 n).reverse.foldl (fun a d => a * 10 + d) 0 := by
      simp
    rw [this, msf_foldl_ofDigits, Nat.ofDigits_digits]

theorem decBytes_digits (n : Nat) : ∀ ch ∈ decBytes n, 48 ≤ ch ∧ ch ≤ 57 := by
  intro ch hch
  unfold decBytes at hch
  by_cases hn : n = 0
  · rw [if_pos hn] at hch
    simp at hch
    omega
  · rw [if_neg hn] at hch
    simp only [List.mem_map, List.mem_reverse] at hch
    obtain ⟨d, hd, rfl⟩ := hch
    have := Nat.digits_lt_base (by norm_num) hd
    omega

theorem decBytes_ne_nil (n : Nat) : decBytes n ≠ [] := by
  unfold decBytes
  by_cases hn : n = 0
  · rw [if_pos hn]
    decide
  · rw [if_neg hn]
    simp [Nat.digits_ne_nil_iff_ne_zero, hn]

theorem hexDigitVal_hexDigitByte (d : Nat) (hd : d < 16) :
    hexDigitVal (hexDigitByte d) = some d := by
  unfold hexDigitVal hexDigitByte
  split_ifs <;> first
    | (rw [Option.some.injEq]; omega)
    | omega

theorem hexVal_hexBytes (n : Nat) : hexVal (hexBytes n) = n := by
  by_cases hn : n = 0
  · subst hn
    decide
  · unfold hexBytes
    rw [if_neg hn]
    unfold hexVal
    rw [List.foldl_map]
    have : ((Nat.digits 16 n).reverse.foldl
          (fun a d => a * 16 + (hexDigitVal (hexDigitByte d)).getD 0) 0)
        = (Nat.digits 16 n).reverse.foldl (fun a d => a * 16 + d) 0 := by
      apply List.foldl_ext
      intro a d hd
      rw [hexDigitVal_hexDigitByte d (Nat.digits_lt_base (by norm_num) (List.mem_reverse.mp hd))]
      rfl
    rw [this, msf_foldl_ofDigits, Nat.ofDigits_digits]

theorem hexBytes_digits (n : Nat) : ∀ ch ∈ hexBytes n, (hexDigitVal ch).isSome = true := by
  intro ch hch
  unfold hexBytes at hch
  by_cases hn : n = 0
  · rw [if_pos hn] at hch
    simp at hch
    subst hch
    decide
  · rw [if_neg hn] at hch
    simp only [List.mem_map, List.mem_reverse] at hch
    obtain ⟨d, hd, rfl⟩ := hch
    rw [hexDigitVal_hexDigitByte d (Nat.digits_lt_base (by norm_num) hd)]
    rfl

theorem hexBytes_ne_nil (n : Nat) : hexBytes n ≠ [] := by
  unfold hexBytes
  by_cases hn : n = 0
  · rw [if_pos hn]
    decide
  · rw [if_neg hn]
    simp [Nat.digits_ne_nil_iff_ne_zero, hn]

/-- C6: parsing is a left inverse of formatting: for every n in the
64-bit unsigned range, Uint64 on the canonical decimal text of n yields
(n, true), and HexUint64 on the canonical hexadecimal text of n yields
(n, true). -/
theorem parse_leftInverse_of_format (n : Nat) (h : n < w64) :
    (Bytestring.Uint64 (NewBytestring (decBytes n))).1 = (n, true) ∧
    (Bytestring.HexUint64 (NewBytestring (hexBytes n))).1 = (n, true) := by
  constructor
  · have hv : decVal (decBytes n) < w64 := by rw [decVal_decBytes]; exact h
    simp only [Bytestring.Uint64, NewBytestring, List.drop_zero]
    rw [show uint64Loop (decBytes n) 0 false = (decVal (decBytes n), true, (decBytes n).length) from
      uint64Loop_digits_start (decBytes n) (decBytes_ne_nil n) (decBytes_digits n) hv]
    simp [decVal_decBytes]
  · have hv : hexVal (hexBytes n) < w64 := by rw [hexVal_hexBytes]; exact h
    simp only [Bytestring.HexUint64, NewBytestring, List.drop_zero]
    rw [show hexUint64Loop (hexBytes n) 0 false = (hexVal (hexBytes n), true, (hexBytes n).length) from
      hexUint64Loop_start_ok (hexBytes n) (hexBytes_ne_nil n) (hexBytes_digits n) hv]
    simp [hexVal_hexBytes]

theorem parse_leftInverse_of_format_witness :
    (Bytestring.Uint64 (NewBytestring (decBytes 3735928559))).1 = (3735928559, true) ∧
    (Bytestring.HexUint64 (NewBytestring (hexBytes 3735928559))).1 = (3735928559, true) :=
  parse_leftInverse_of_format 3735928559 (by norm_num [w64])

theorem leNat_lt (l : List Nat) : leNat l < 256 ^ l.length := by
  induction l with
  | nil => simp [leNat]
  | cons byte rest ih =>
    simp only [leNat, List.length_cons, pow_succ]
    have hb : byte % 256 < 256 := Nat.mod_lt _ (by norm_num)
    have hpos : 0 < 256 ^ rest.length := Nat.pos_pow_of_pos _ (by norm_num)
    nlinarith

theorem Len_lt_65536 (d : RawDirEntry64) (dlen : Nat)
    (h : RawDirEntry64.Len d = some dlen) : dlen < 65536 := by
  unfold RawDirEntry64.Len readUint at h
  split at h
  · exact absurd h (by simp)
  · rw [if_pos (by norm_num)] at h
    have hlen := leNat_lt ((d.drop 16).take 2)
    have htake : ((d.drop 16).take 2).length ≤ 2 := by
      simp [List.length_take]
    have hmono : (256 : Nat) ^ ((d.drop 16).take 2).length ≤ 256 ^ 2 :=
      Nat.pow_le_pow_right (by norm_num) htake
    have := Option.some.inj h
    subst this
    calc leNat ((d.drop 16).take 2) < 256 ^ ((d.drop 16).take 2).length := hlen
    _ ≤ 256 ^ 2 := hmono
    _ = 65536 := by norm_num

theorem nameScanLoop_eq (d : List Nat) (hi : Nat) :
    ∀ k pos, 19 ≤ pos → pos + k = hi → hi ≤ d.length →
      nameScanLoop d hi k pos =
        NameRes.ok ((d.drop 19).take ((pos - 19) +
          (((d.drop pos).take k).takeWhile (fun byte => byte != 0)).length)) := by
  intro k
  induction k with
  | zero =>
    intro pos hpos hk hhi
    simp only [nameScanLoop, if_pos (show 19 ≤ hi by omega), listSlice]
    have : hi - 19 = pos - 19 + (((d.drop pos).take 0).takeWhile (fun byte => byte != 0)).length := by
      simp
      omega
    rw [this]
  | succ k ih =>
    intro pos hpos hk hhi
    have hlt : pos < d.length := by omega
    have hdrop : d.drop pos = d.getD pos 0 :: d.drop (pos + 1) := by
      rw [List.getD_eq_getElem d 0 hlt]
      exact List.drop_eq_getElem_cons hlt
    simp only [nameScanLoop]
    by_cases hz : d.getD pos 0 = 0
    · rw [if_pos hz]
      have : ((d.drop pos).take (k + 1)).takeWhile (fun byte => byte != 0) = [] := by
        rw [hdrop, List.take_succ_cons, hz]
        simp [List.takeWhile]
      rw [this]
      simp only [List.length_nil, Nat.add_zero, listSlice]
    · rw [if_neg hz]
      rw [ih (pos + 1) (by omega) (by omega) hhi]
      have harg : (pos + 1 - 19) +
            (((d.drop (pos + 1)).take k).takeWhile (fun byte => byte != 0)).length
          = (pos - 19) +
            (((d.drop pos).take (k + 1)).takeWhile (fun byte => byte != 0)).length := by
        rw [hdrop, List.take_succ_cons,
          List.takeWhile_cons_of_pos (by simpa using hz)]
        simp only [List.length_cons]
        omega
      rw [harg]

/-- C10: whenever the record length decodes and the declared name region
fits (19 ≤ dentryLen ≤ slice length), Name returns exactly the bytes of
the declared region up to but excluding its first NUL, or the whole
declared region when it holds no NUL — the takeWhile of non-NUL bytes of
that region — and in particular never reads past the declared region. -/
theorem name_within_declared_region (d : RawDirEntry64) (dlen : Nat)
    (hlen : RawDirEntry64.Len d = some dlen) (hlo : 19 ≤ dlen) (hhi : dlen ≤ d.length) :
    RawDirEntry64.Name d
      = NameRes.ok (((d.drop 19).take (dlen - 19)).takeWhile (fun byte => byte != 0)) := by
  have hdlt : dlen < 65536 := Len_lt_65536 d dlen hlen
  have hw : w64 = 18446744073709551616 := rfl
  unfold RawDirEntry64.Name
  rw [hlen]
  simp only [direntNameOffset]
  have hnl : (dlen + w64 - 19) % w64 = dlen - 19 := by
    rw [hw]
    omega
  have hhieq : (19 + (dlen - 19)) % w64 = dlen := by
    rw [hw]
    omega
  rw [hnl, hhieq]
  rw [if_neg (show ¬dlen > d.length by omega)]
  rw [nameScanLoop_eq d dlen (dlen - 19) 19 (by omega) (by omega) hhi]
  have hlen19 : ∀ L : List Nat,
      (L.takeWhile (fun byte => byte != 0)).length ≤ L.length :=
    fun L => (List.takeWhile_prefix _).length_le
  set region := (d.drop 19).take (dlen - 19) with hregion
  have hpre : region.takeWhile (fun byte => byte != 0) <+: region :=
    List.takeWhile_prefix _
  have htw : region.takeWhile (fun byte => byte != 0)
      = region.take (region.takeWhile (fun byte => byte != 0)).length :=
    List.prefix_iff_eq_take.mp hpre
  have hmin : min (region.takeWhile (fun byte => byte != 0)).length (dlen - 19)
      = (region.takeWhile (fun byte => byte != 0)).length := by
    have h1 := hlen19 region
    have h2 : region.length ≤ dlen - 19 := by
      rw [hregion]
      simp [List.length_take]
    omega
  refine congrArg NameRes.ok ?_
  have h1919 : (19 : Nat) - 19 + (region.takeWhile (fun byte => byte != 0)).length
      = (region.takeWhile (fun byte => byte != 0)).length := by omega
  rw [h1919]
  calc (d.drop 19).take (region.takeWhile (fun byte => byte != 0)).length
      = ((d.drop 19).take (dlen - 19)).take (region.takeWhile (fun byte => byte != 0)).length := by
        rw [List.take_take, hmin]
  _ = region.take (region.takeWhile (fun byte => byte != 0)).length := by rw [hregion]
  _ = region.takeWhile (fun byte => byte != 0) := htw.symm

set_option maxRecDepth 4000 in
theorem name_within_declared_region_witness :
    RawDirEntry64.Name
      [1, 0, 0, 0, 0, 0, 0, 0, 0, 0, 0, 0, 0, 0, 0, 0, 23, 0, 8, 102, 111, 111, 0]
      = NameRes.ok [102, 111, 111] := by
  rw [name_within_declared_region
    [1, 0, 0, 0, 0, 0, 0, 0, 0, 0, 0, 0, 0, 0, 0, 0, 23, 0, 8, 102, 111, 111, 0]
    23 (by decide) (by decide) (by decide)]
  decide

theorem encodeU_length (k : Nat) : ∀ v, (encodeU k v).length = k := by
  induction k with
  | zero => intro v; rfl
  | succ k ih =>
    intro v
    simp only [encodeU, List.length_cons, ih]

theorem leNat_encodeU (k : Nat) : ∀ v, v < 256 ^ k → leNat (encodeU k v) = v := by
  induction k with
  | zero =>
    intro v hv
    interval_cases v
    rfl
  | succ k ih =>
    intro v hv
    have hdiv : v / 256 < 256 ^ k := by
      rw [Nat.div_lt_iff_lt_mul (by norm_num)]
      calc v < 256 ^ (k + 1) := hv
      _ = 256 ^ k * 256 := by rw [pow_succ]
    simp only [encodeU, leNat, ih (v / 256) hdiv]
    omega

theorem encodeDirent_length (e : DirEntry) : (encodeDirent e).length = 20 + e.name.length := by
  simp [encodeDirent, encodeU_length]
  omega

theorem takeWhile_append_all (p : Nat → Bool) (l l' : List Nat) (h : ∀ x ∈ l, p x = true) :
    (l ++ l').takeWhile p = l ++ l'.takeWhile p := by
  induction l with
  | nil => simp
  | cons a t ih =>
    rw [List.cons_append, List.takeWhile_cons_of_pos (h a (List.mem_cons_self a t)),
      ih (fun x hx => h x (List.mem_cons_of_mem a hx))]
    rfl

theorem Len_encodeDirent (e : DirEntry) (rest : List Nat)
    (hlen : 20 + e.name.length < 65536) :
    RawDirEntry64.Len (encodeDirent e ++ rest) = some (20 + e.name.length) := by
  have hlength : (encodeDirent e ++ rest).length = 20 + e.name.length + rest.length := by
    simp [encodeDirent_length]
  unfold RawDirEntry64.Len readUint
  rw [if_neg (by omega), if_pos (by norm_num)]
  have hdrop : (encodeDirent e ++ rest).drop 16
      = encodeU 2 (20 + e.name.length) ++ ([e.typ] ++ (e.name ++ [0]) ++ rest) := by
    have hassoc : encodeDirent e ++ rest
        = (encodeU 8 e.ino ++ encodeU 8 0) ++
          (encodeU 2 (20 + e.name.length) ++ ([e.typ] ++ (e.name ++ [0]) ++ rest)) := by
      simp [encodeDirent]
    rw [hassoc, List.drop_left' (by simp [encodeU_length])]
  rw [hdrop, List.take_left' (encodeU_length 2 _)]
  rw [leNat_encodeU 2 _ (by norm_num; omega)]

theorem Ino_encodeDirent (e : DirEntry) (rest : List Nat) (hino : e.ino < w64) :
    RawDirEntry64.Ino (encodeDirent e ++ rest) = some e.ino := by
  have hlength : (encodeDirent e ++ rest).length = 20 + e.name.length + rest.length := by
    simp [encodeDirent_length]
  unfold RawDirEntry64.Ino readUint
  rw [if_neg (by omega), if_pos (by norm_num)]
  have hassoc : encodeDirent e ++ rest
      = encodeU 8 e.ino ++
        (encodeU 8 0 ++ encodeU 2 (20 + e.name.length) ++ ([e.typ] ++ (e.name ++ [0]) ++ rest)) := by
    simp [encodeDirent]
  rw [List.drop_zero, hassoc, List.take_left' (encodeU_length 8 _)]
  rw [leNat_encodeU 8 _ (by norm_num [w64] at hino ⊢; omega)]

theorem dirType_encodeDirent (e : DirEntry) (rest : List Nat) :
    RawDirEntry64.dirType (encodeDirent e ++ rest) = some e.typ := by
  have hlength : (encodeDirent e ++ rest).length = 20 + e.name.length + rest.length := by
    simp [encodeDirent_length]
  unfold RawDirEntry64.dirType
  rw [if_neg (by omega)]
  have hassoc : encodeDirent e ++ rest
      = (encodeU 8 e.ino ++ encodeU 8 0 ++ encodeU 2 (20 + e.name.length)) ++
        (e.typ :: (e.name ++ [0] ++ rest)) := by
    simp [encodeDirent]
  have hprelen : (encodeU 8 e.ino ++ encodeU 8 0 ++ encodeU 2 (20 + e.name.length)).length = 18 := by
    simp [encodeU_length]
  rw [hassoc, List.getD_append_right _ _ _ _ (by omega), hprelen]
  rfl

theorem Name_encodeDirent (e : DirEntry) (rest : List Nat) (hwf : wfEntry e) :
    RawDirEntry64.Name (encodeDirent e ++ rest) = NameRes.ok e.name := by
  obtain ⟨hino, htyp, hlen, hname⟩ := hwf
  have hw : w64 = 18446744073709551616 := rfl
  have hlength : (encodeDirent e ++ rest).length = 20 + e.name.length + rest.length := by
    simp [encodeDirent_length]
  unfold RawDirEntry64.Name
  rw [Len_encodeDirent e rest hlen]
  simp only [direntNameOffset]
  have hnl : (20 + e.name.length + w64 - 19) % w64 = e.name.length + 1 := by
    rw [hw]
    omega
  have hhieq : (19 + (e.name.length + 1)) % w64 = 20 + e.name.length := by
    rw [hw]
    omega
  rw [hnl, hhieq]
  rw [if_neg (by omega)]
  have hk : 20 + e.name.length - 19 = e.name.length + 1 := by omega
  rw [hk]
  rw [nameScanLoop_eq (encodeDirent e ++ rest) (20 + e.name.length) (e.name.length + 1) 19
    (by omega) (by omega) (by omega)]
  have hdrop19 : (encodeDirent e ++ rest).drop 19 = (e.name ++ [0]) ++ rest := by
    have hassoc : encodeDirent e ++ rest
        = (encodeU 8 e.ino ++ encodeU 8 0 ++ encodeU 2 (20 + e.name.length) ++ [e.typ]) ++
          ((e.name ++ [0]) ++ rest) := by
      simp [encodeDirent]
    rw [hassoc, List.drop_left' (by simp [encodeU_length])]
  rw [hdrop19]
  have htake : ((e.name ++ [0]) ++ rest).take (e.name.length + 1) = e.name ++ [0] :=
    List.take_left' (by simp)
  rw [htake]
  have htw : (e.name ++ [0]).takeWhile (fun byte => byte != 0) = e.name := by
    rw [takeWhile_append_all _ _ _ (fun x hx => by
      have := (hname x hx).1
      simp
      omega)]
    simp [List.takeWhile]
  rw [htw]
  have hfinal : ((e.name ++ [0]) ++ rest).take (19 - 19 + e.name.length) = e.name := by
    rw [show 19 - 19 + e.name.length = e.name.length by omega, List.append_assoc,
      List.take_left' rfl]
  rw [hfinal]

theorem drainBatch_encodes (recs : List DirEntry) :
    ∀ fuel buff pos, (∀ e ∈ recs, wfEntry e) →
      buff.drop pos = (recs.map encodeDirent).flatten →
      recs.length < fuel →
      drainBatch fuel buff pos = BatchRes.refill (recs.filter keepEntry) := by
  induction recs with
  | nil =>
    intro fuel buff pos _ hdrop hfuel
    match fuel, hfuel with
    | f + 1, _ =>
      simp only [List.map_nil, List.flatten_nil] at hdrop
      have hle : buff.length ≤ pos := List.drop_eq_nil_iff.mp hdrop
      simp only [drainBatch]
      rw [if_pos (by omega)]
      simp
  | cons e rest' ih =>
    intro fuel buff pos hwf hdrop hfuel
    have hwfe := hwf e (List.mem_cons_self e rest')
    obtain ⟨hino, htyp, hlen, hname⟩ := hwfe
    match fuel, hfuel with
    | f + 1, hf =>
      simp only [List.map_cons, List.flatten_cons] at hdrop
      have hdroplen : (buff.drop pos).length
          = 20 + e.name.length + ((rest'.map encodeDirent).flatten).length := by
        rw [hdrop]
        simp [encodeDirent_length]
      have hposlt : pos < buff.length := by
        rw [List.length_drop] at hdroplen
        omega
      have hdrop' : buff.drop (pos + (20 + e.name.length)) = (rest'.map encodeDirent).flatten := by
        have h1 : buff.drop (pos + (20 + e.name.length))
            = (buff.drop pos).drop (20 + e.name.length) := by
          rw [List.drop_drop]
        rw [h1, hdrop, List.drop_left' (encodeDirent_length e)]
      have hwfrest : ∀ x ∈ rest', wfEntry x := fun x hx => hwf x (List.mem_cons_of_mem e hx)
      simp only [drainBatch]
      rw [if_neg (by omega)]
      rw [hdrop]
      rw [Len_encodeDirent e _ hlen]
      simp only
      rw [if_neg (by
        have : (encodeDirent e ++ (rest'.map encodeDirent).flatten).length
            = 20 + e.name.length + ((rest'.map encodeDirent).flatten).length := by
          simp [encodeDirent_length]
        omega)]
      rw [Ino_encodeDirent e _ hino]
      simp only
      by_cases hino0 : e.ino = 0
      · rw [if_pos hino0]
        have hkeep : ¬keepEntry e = true := by
          simp [keepEntry, hino0]
        rw [List.filter_cons_of_neg hkeep]
        exact ih f buff (pos + (20 + e.name.length)) hwfrest hdrop' (by
          simp only [List.length_cons] at hf
          omega)
      · rw [if_neg hino0]
        rw [Name_encodeDirent e _ ⟨hino, htyp, hlen, hname⟩]
        simp only
        by_cases hdot : e.name = [46] ∨ e.name = [46, 46]
        · rw [if_pos hdot]
          have hkeep : ¬keepEntry e = true := by
            simp only [keepEntry]
            rcases hdot with h | h <;> simp [h]
          rw [List.filter_cons_of_neg hkeep]
          exact ih f buff (pos + (20 + e.name.length)) hwfrest hdrop' (by
            simp only [List.length_cons] at hf
            omega)
        · rw [if_neg hdot]
          rw [dirType_encodeDirent e _]
          simp only
          rw [ih f buff (pos + (20 + e.name.length)) hwfrest hdrop' (by
            simp only [List.length_cons] at hf
            omega)]
          have hkeep : keepEntry e = true := by
            simp only [keepEntry]
            push_neg at hdot
            simp [hino0, hdot.1, hdot.2]
          rw [List.filter_cons_of_pos hkeep]
          rfl

theorem runBatches_encodes (fuel : Nat) (batches : List (List DirEntry))
    (h : ∀ b ∈ batches, b ≠ [] ∧ b.length < fuel ∧ ∀ e ∈ b, wfEntry e) :
    runBatches fuel (batches.map (fun b => (b.map encodeDirent).flatten))
      = RunRes.ok (batches.flatten.filter keepEntry) := by
  induction batches with
  | nil => simp [runBatches]
  | cons b rest ih =>
    obtain ⟨hne, hflt, hwfb⟩ := h b (List.mem_cons_self b rest)
    have hrest := fun x hx => h x (List.mem_cons_of_mem b hx)
    simp only [List.map_cons, runBatches]
    have hblen : ((b.map encodeDirent).flatten).length ≠ 0 := by
      match b, hne with
      | e :: t, _ =>
        simp [encodeDirent_length]
    rw [if_neg hblen]
    rw [drainBatch_encodes b fuel ((b.map encodeDirent).flatten) 0 hwfb (by simp) hflt]
    rw [ih hrest]
    simp only [RunRes.prependEntries, List.flatten_cons, List.filter_append]

/-- C2: when the batched reads deliver well-formed records, the ReadDir
iteration yields exactly the records with a non-zero inode whose name is
neither "." nor ".." — so every yielded entry has a non-zero inode — and
yields them in the order the records appear in the kernel-filled buffers,
with no reordering. -/
theorem readDir_yields_filtered_in_order (batches : List (List DirEntry))
    (hne : ∀ b ∈ batches, b ≠ [])
    (hwf : ∀ b ∈ batches, ∀ e ∈ b, wfEntry e) :
    runBatches (batches.flatten.length + 1)
        (batches.map (fun b => (b.map encodeDirent).flatten))
      = RunRes.ok (batches.flatten.filter keepEntry) := by
  apply runBatches_encodes
  intro b hb
  refine ⟨hne b hb, ?_, hwf b hb⟩
  have : b.length ≤ batches.flatten.length := by
    rw [List.length_flatten]
    exact List.single_le_sum (fun x _ => Nat.zero_le x) b.length
      (List.mem_map_of_mem List.length hb)
  omega

set_option maxRecDepth 8000 in
theorem readDir_yields_filtered_in_order_witness :
    runBatches 4
        ([[{ ino := 1, name := [97], typ := 8 }, { ino := 0, name := [98], typ := 8 }],
          [{ ino := 2, name := [46], typ := 4 }]].map (fun b => (b.map encodeDirent).flatten))
      = RunRes.ok [{ ino := 1, name := [97], typ := 8 }] := by
  have h := readDir_yields_filtered_in_order
    [[{ ino := 1, name := [97], typ := 8 }, { ino := 0, name := [98], typ := 8 }],
      [{ ino := 2, name := [46], typ := 4 }]]
    (by decide)
    (by simp only [wfEntry, w64]; decide)
  simpa using h

end Faf
